import Mathlib

/-!
Verification development for the RAG retrieval core
(`backend/app/rag/chunking.py` and `backend/app/rag/hybrid_search.py`).

The Python code is shallowly embedded: text is `List Char`, Python floats
are modelled as `ℚ`, Python exceptions as an explicit `PyErr` type with
`Except`, and the `while` loop of fixed-size chunking (whose termination is
exactly what is at issue) is given explicit fuel, returning `none` when the
fuel runs out without the loop finishing.
-/

namespace RagCore

/-! ### Python string primitives -/

/-- Python `str` whitespace (ASCII whitespace, as used by `strip`/`split`). -/
def isSpaceChar (c : Char) : Bool :=
  c == ' ' || c == '\t' || c == '\n' || c == '\r' || c == '\x0b' || c == '\x0c'

/-- Python `str.strip()`: drop leading and trailing whitespace. -/
def stripChars (s : List Char) : List Char :=
  ((s.dropWhile isSpaceChar).reverse.dropWhile isSpaceChar).reverse

/-- Python `str.lower()` (ASCII case mapping, as `Char.toLower`). -/
def pyLower (s : List Char) : List Char := s.map Char.toLower

/-- Normalize one Python slice index against a length (negative counts from
the end, everything clamped into `[0, len]`). -/
def pySliceIdx (len : Nat) (i : Int) : Nat :=
  if i < 0 then ((len : Int) + i).toNat else min i.toNat len

/-- Python slice `s[a:b]` with full negative index and clamping semantics. -/
def pySlice {α : Type} (s : List α) (a b : Int) : List α :=
  (s.take (pySliceIdx s.length b)).drop (pySliceIdx s.length a)

/-- Python `str.rfind(c)`: index of the last occurrence of `c`, or `-1`. -/
def pyRfind (s : List Char) (c : Char) : Int :=
  match s.reverse.findIdx? (· == c) with
  | some i => (s.length : Int) - 1 - i
  | none => -1

/-! ### Data model of `chunking.py` -/

/-- The `Chunk` dataclass; the metadata dict is modelled by a type parameter. -/
structure Chunk (μ : Type) where
  content : List Char
  chunk_index : Nat
  metadata : μ
  deriving DecidableEq, Repr

/-- Metadata fields added by `FixedSizeChunking.chunk` on top of the
caller-supplied base metadata. -/
structure FixedMeta where
  start_char : Int
  end_char : Int
  chunk_size : Nat
  deriving DecidableEq, Repr

/-- The sentence-boundary adjustment test of `FixedSizeChunking.chunk`:
the window does not reach the end of the text and the last period of the
window sits in its trailing 20 percent (`last_period > chunk_size * 0.8`). -/
def fixedAdjust (cs : Nat) (text : List Char) (start : Int) : Bool :=
  decide (start + (cs : Int) < (text.length : Int)) &&
    decide ((cs : ℚ) * (4 / 5) < (pyRfind (pySlice text start (start + (cs : Int))) '.' : ℚ))

/-- The final `end` of the window starting at `start`. -/
def fixedEnd (cs : Nat) (text : List Char) (start : Int) : Int :=
  if fixedAdjust cs text start then
    start + pyRfind (pySlice text start (start + (cs : Int))) '.' + 1
  else start + (cs : Int)

/-- The final `chunk_text` of the window starting at `start`. -/
def fixedChunkText (cs : Nat) (text : List Char) (start : Int) : List Char :=
  pySlice text start (fixedEnd cs text start)

/-- The `while start < len(text)` loop of `FixedSizeChunking.chunk`, with
fuel; `none` means the fuel was exhausted with the loop still running (the
Python loop is still spinning). -/
def fixedChunkLoop (μ : Type) (cs ov : Nat) (text : List Char) (base : μ) :
    Nat → Int → Nat → List (Chunk (μ × FixedMeta)) → Option (List (Chunk (μ × FixedMeta)))
  | 0, _, _, _ => none
  | fuel + 1, start, idx, acc =>
    if start < (text.length : Int) then
      fixedChunkLoop μ cs ov text base fuel (fixedEnd cs text start - (ov : Int)) (idx + 1)
        (acc ++ [⟨stripChars (fixedChunkText cs text start), idx,
          (base, ⟨start, fixedEnd cs text start, (fixedChunkText cs text start).length⟩)⟩])
    else some acc

/-- The call `FixedSizeChunking(chunk_size, overlap).chunk(text, metadata)`, with fuel. -/
def fixedChunk (μ : Type) (cs ov : Nat) (text : List Char) (base : μ) (fuel : Nat) :
    Option (List (Chunk (μ × FixedMeta))) :=
  fixedChunkLoop μ cs ov text base fuel 0 0 []

/-- Is `c` one of the sentence-terminating characters of the splitting regex. -/
def sentenceEnd (c : Char) : Bool := c == '.' || c == '!' || c == '?'

/-- Worker for the sentence splitter of `re.split(r"(?<=[.!?])\s+", text)`:
`cur` is the current piece (reversed); `inRun` is true while the maximal
whitespace run that triggered a split is still being consumed. -/
def sentenceSplitAux : List Char → Bool → List Char → List (List Char)
  | [], _, cur => [cur.reverse]
  | c :: rest, true, cur =>
    if isSpaceChar c then sentenceSplitAux rest true cur
    else sentenceSplitAux rest false [c]
  | c :: rest, false, cur =>
    if isSpaceChar c && (match cur with | p :: _ => sentenceEnd p | [] => false) then
      cur.reverse :: sentenceSplitAux rest true []
    else
      sentenceSplitAux rest false (c :: cur)

/-- The sentence splitter of the chunkers: split on runs of whitespace that
follow a terminal punctuation mark. -/
def sentenceSplit (text : List Char) : List (List Char) := sentenceSplitAux text false []

/-- The `sentences` list as computed by `SentenceChunking.chunk` and
`SemanticChunking.chunk`: split, strip each piece, drop empties. -/
def sentencesOf (text : List Char) : List (List Char) :=
  ((sentenceSplit text).map stripChars).filter (fun s => !s.isEmpty)

/-- Metadata fields added by `SentenceChunking.chunk`. -/
structure SentMeta where
  sentence_start : Nat
  sentence_end : Nat
  num_sentences : Nat
  deriving DecidableEq, Repr

/-- The Python exception classes this code can meet, coarsely. Every one of
them is a subclass of `Exception`, so a bare `except Exception` catches all. -/
inductive PyErr where
  | generic
  | memoryError
  | configurationError
  | valueError
  deriving DecidableEq, Repr

/-- Python `range(0, n, step)` for a nonzero step: ascending multiples of `step`
below `n` when `step > 0`, the empty range when `step < 0`. -/
def pyRangeStep (n : Nat) (step : Int) : List Nat :=
  if step ≤ 0 then []
  else (List.range ((n + step.toNat - 1) / step.toNat)).map (fun i => i * step.toNat)

/-- The `for i in range(...)` body of `SentenceChunking.chunk`, folded with
the running `(chunk_index, chunks)` state. -/
def sentenceChunkBody (μ : Type) (spc os : Int) (sentences : List (List Char)) (base : μ) :
    List (Chunk (μ × SentMeta)) :=
  (((pyRangeStep sentences.length (spc - os)).foldl
    (fun (st : Nat × List (Chunk (μ × SentMeta))) (i : Nat) =>
      let chunk_sentences := pySlice sentences (i : Int) ((i : Int) + spc)
      let chunk_text := List.intercalate [' '] chunk_sentences
      if stripChars chunk_text ≠ [] then
        (st.1 + 1, st.2 ++
          [⟨chunk_text, st.1, (base, ⟨i, i + chunk_sentences.length, chunk_sentences.length⟩)⟩])
      else st)
    (0, []))).2

/-- The call `SentenceChunking(sentences_per_chunk, overlap_sentences).chunk(text, metadata)`.
A zero advance step makes `range` raise `ValueError`; a negative step makes
`range` empty. -/
def sentenceChunk (μ : Type) (spc os : Int) (text : List Char) (base : μ) :
    Except PyErr (List (Chunk (μ × SentMeta))) :=
  if spc - os = 0 then .error .valueError
  else .ok (sentenceChunkBody μ spc os (sentencesOf text) base)

/-- The sentence-accumulation loop of `SemanticChunking.chunk`. -/
def semanticChunkLoop (μ : Type) (mcs : Nat) (base : μ) :
    List (List Char) → List (List Char) → Nat → Nat → List (Chunk (μ × String)) →
      List (Chunk (μ × String))
  | [], cur, _, idx, acc =>
    if cur ≠ [] then acc ++ [⟨List.intercalate [' '] cur, idx, (base, "semantic")⟩] else acc
  | s :: rest, cur, size, idx, acc =>
    if mcs < size + s.length ∧ cur ≠ [] then
      semanticChunkLoop μ mcs base rest [s] (s.length + 1) (idx + 1)
        (acc ++ [⟨List.intercalate [' '] cur, idx, (base, "semantic")⟩])
    else
      semanticChunkLoop μ mcs base rest (cur ++ [s]) (size + s.length + 1) idx acc

/-- The call `SemanticChunking(max_chunk_size, _).chunk(text, metadata)` (fallback
sentence-accumulation mode, the only implemented mode). -/
def semanticChunk (μ : Type) (mcs : Nat) (text : List Char) (base : μ) :
    List (Chunk (μ × String)) :=
  semanticChunkLoop μ mcs base (sentencesOf text) [] 0 0 []

/-! ### Data model of `hybrid_search.py` -/

/-- The `SearchResult` dataclass; the metadata dict is a type parameter. -/
structure SearchResult (μ : Type) where
  chunk_id : Int
  document_id : Int
  content : List Char
  score : ℚ
  search_type : String
  metadata : μ
  deriving DecidableEq, Repr

/-- One keyword-search input document (`{id, document_id, content, metadata}`). -/
structure KwDoc (μ : Type) where
  id : Int
  document_id : Int
  content : List Char
  metadata : μ
  deriving DecidableEq, Repr

/-- One raw hit returned by `vector_store.search_similar`. -/
structure RawHit (μ : Type) where
  id : Int
  document_id : Int
  content : List Char
  similarity : ℚ
  metadata : μ
  deriving DecidableEq, Repr

/-- The vector store collaborator: `search_similar(query_embedding, top_k,
threshold)` either returns raw hits or raises. -/
def VecStore (μ : Type) : Type :=
  List ℚ → Nat → ℚ → Except PyErr (List (RawHit μ))

/-! ### `KeywordSearch` -/

/-- Python `\w` (ASCII approximation). -/
def isWordChar (c : Char) : Bool := c.isAlphanum || c == '_'

/-- Worker for Python `str.split()`: `cur` is the current word, reversed. -/
def splitWsAux : List Char → List Char → List (List Char)
  | [], cur => if cur.isEmpty then [] else [cur.reverse]
  | c :: rest, cur =>
    if isSpaceChar c then
      if cur.isEmpty then splitWsAux rest []
      else cur.reverse :: splitWsAux rest []
    else splitWsAux rest (c :: cur)

/-- Python `str.split()`: split on whitespace runs, no empty pieces. -/
def splitWs (s : List Char) : List (List Char) := splitWsAux s []

/-- The fixed stopword set of `KeywordSearch._normalize_query`. -/
def stopwords : List (List Char) :=
  ["o", "a", "de", "em", "para", "com", "por", "e", "ou", "é", "que"].map String.toList

/-- The method `KeywordSearch._normalize_query`: lowercase, punctuation to space,
split on whitespace, drop stopwords and tokens of length at most 2. -/
def normalizeQuery (q : List Char) : List (List Char) :=
  let q1 := (pyLower q).map (fun c => if isWordChar c || isSpaceChar c then c else ' ')
  (splitWs q1).filter (fun t => decide (t ∉ stopwords) && decide (2 < t.length))

/-- Non-overlapping occurrence counting, the worker of Python `str.count`
for a non-empty pattern: `skip` counts characters still covered by the
previous match (scanning resumes after it). -/
def strCountAux (pat : List Char) : List Char → Nat → Nat
  | [], _ => 0
  | c :: rest, skip =>
    if 0 < skip then strCountAux pat rest (skip - 1)
    else if pat.isPrefixOf (c :: rest) then 1 + strCountAux pat rest (pat.length - 1)
    else strCountAux pat rest 0

/-- Python `str.count`. -/
def strCount (pat s : List Char) : Nat :=
  if pat.isEmpty then s.length + 1 else strCountAux pat s 0

/-- The saturating per-term score `c / (1 + c * 0.1)`. -/
def tfScore (c : Nat) : ℚ := (c : ℚ) / (1 + (c : ℚ) * (1 / 10))

/-- The method `KeywordSearch._calculate_score`: accumulate the saturating score of
every query term's occurrence count in the lowercased content. -/
def calculateScore (terms : List (List Char)) (content : List Char) : ℚ :=
  terms.foldl
    (fun score term =>
      let count := strCount term (pyLower content)
      if 0 < count then score + tfScore count else score)
    0

/-- The `insertionSort` relation: descending by `score` (Python
`sort(key=lambda x: x.score, reverse=True)`; stable, ties keep input order). -/
def scoreGe (μ : Type) (a b : SearchResult μ) : Prop := b.score ≤ a.score

instance (μ : Type) : DecidableRel (scoreGe μ) :=
  fun a b => inferInstanceAs (Decidable (b.score ≤ a.score))

instance (μ : Type) : IsTotal (SearchResult μ) (scoreGe μ) :=
  ⟨fun a b => le_total b.score a.score⟩

instance (μ : Type) : IsTrans (SearchResult μ) (scoreGe μ) :=
  ⟨fun _ _ _ h1 h2 => le_trans h2 h1⟩

/-- Sort a result list descending by score. -/
def sortByScoreDesc (μ : Type) (l : List (SearchResult μ)) : List (SearchResult μ) :=
  List.insertionSort (scoreGe μ) l

/-- The `try` body of `KeywordSearch.search` over well-formed documents. -/
def keywordSearchOk (μ : Type) (w : ℚ) (query : List Char) (docs : List (KwDoc μ))
    (top_k : Nat) : List (SearchResult μ) :=
  let terms := normalizeQuery query
  if terms.isEmpty then []
  else
    (sortByScoreDesc μ
      (docs.foldl
        (fun acc d =>
          let score := calculateScore terms (pyLower d.content)
          if 0 < score then
            acc ++ [⟨d.id, d.document_id, d.content, score * w, "keyword", d.metadata⟩]
          else acc)
        [])).take top_k

/-- The method `KeywordSearch.search`: the document input may raise while iterated
(modelled as an `Except` input); the bare `except Exception` turns any
failure into an empty list. -/
def keywordSearch (μ : Type) (w : ℚ) (query : List Char)
    (docsE : Except PyErr (List (KwDoc μ))) (top_k : Nat) : List (SearchResult μ) :=
  match docsE with
  | .error _ => []
  | .ok docs => keywordSearchOk μ w query docs top_k

/-! ### `SemanticSearch` -/

/-- The method `SemanticSearch.search`: call the store, weight similarities, wrap.
The whole body is inside `try ... except Exception: return []`, so every
error class of the store call (including memory and configuration errors)
is converted into `.ok []`; the result is `Except` so that a propagated
exception is representable. -/
def semanticSearch (μ : Type) (w : ℚ) (emb : List ℚ) (store : VecStore μ) (top_k : Nat)
    (threshold : ℚ) : Except PyErr (List (SearchResult μ)) :=
  match store emb top_k threshold with
  | .error _ => .ok []
  | .ok hits =>
    .ok (hits.map fun h => ⟨h.id, h.document_id, h.content, h.similarity * w, "semantic", h.metadata⟩)

/-! ### `HybridSearch` -/

/-- The dedup key `(chunk_id, document_id)`. -/
def rKey (μ : Type) (r : SearchResult μ) : Int × Int := (r.chunk_id, r.document_id)

/-- One iteration of the merge loops of `HybridSearch._combine_results`:
if the key is present add the score onto the stored entry, else append a
new entry (Python dicts preserve insertion order). -/
def insertResult (μ : Type) (m : List ((Int × Int) × SearchResult μ)) (r : SearchResult μ) :
    List ((Int × Int) × SearchResult μ) :=
  if m.any (fun p => decide (p.1 = rKey μ r)) then
    m.map (fun p =>
      if p.1 = rKey μ r then (p.1, { p.2 with score := p.2.score + r.score }) else p)
  else m ++ [(rKey μ r, r)]

/-- The method `HybridSearch._combine_results`: insert all semantic results, then all
keyword results, and return the dict values in insertion order. -/
def combineResults (μ : Type) (sem kw : List (SearchResult μ)) : List (SearchResult μ) :=
  (kw.foldl (insertResult μ) (sem.foldl (insertResult μ) [])).map (fun p => p.2)

/-- The method `HybridSearch._rerank_results`: the model is an optional pairwise
scorer; `predictFails` models `self.reranker.predict` raising, in which
case the `except` branch returns the input unchanged. On success every
result's score is overwritten with the pairwise score. -/
def rerankResults (μ : Type) (reranker : Option (List Char → List Char → ℚ))
    (predictFails : Bool) (query : List Char) (results : List (SearchResult μ)) :
    List (SearchResult μ) :=
  match reranker with
  | none => results
  | some f =>
    if results.isEmpty then results
    else if predictFails then results
    else results.map fun r => { r with score := f query r.content }

/-- The method `HybridSearch.search`: semantic and keyword retrieval (each over-
sampling `2 * top_k`), fusion, optional reranking, descending sort,
truncation to `top_k`. The outer `except Exception: return []` is the
`.error` branch. -/
def hybridSearch (μ : Type) (ws wk : ℚ) (query : List Char) (emb : List ℚ)
    (store : VecStore μ) (docsE : Except PyErr (List (KwDoc μ)))
    (reranker : Option (List Char → List Char → ℚ)) (predictFails : Bool)
    (top_k : Nat) : List (SearchResult μ) :=
  match semanticSearch μ ws emb store (top_k * 2) (7 / 10) with
  | .error _ => []
  | .ok semantic_results =>
    let keyword_results := keywordSearch μ wk query docsE (top_k * 2)
    let combined := combineResults μ semantic_results keyword_results
    let reranked :=
      if reranker.isSome && !combined.isEmpty then
        rerankResults μ reranker predictFails query combined
      else combined
    (sortByScoreDesc μ reranked).take top_k

/-- The spec's description of the no-rerank pipeline: fused results sorted
descending by their fused scores, truncated to `top_k`. Stated separately
so the rerank-degradation claim can compare `hybridSearch` against it. -/
def fusedRanking (μ : Type) (ws wk : ℚ) (query : List Char) (emb : List ℚ)
    (store : VecStore μ) (docsE : Except PyErr (List (KwDoc μ))) (top_k : Nat) :
    List (SearchResult μ) :=
  match semanticSearch μ ws emb store (top_k * 2) (7 / 10) with
  | .error _ => []
  | .ok semantic_results =>
    (sortByScoreDesc μ
      (combineResults μ semantic_results (keywordSearch μ wk query docsE (top_k * 2)))).take top_k

/-- Summed score carried by a key inside a result list. -/
def keyScoreSum (μ : Type) (l : List (SearchResult μ)) (k : Int × Int) : ℚ :=
  ((l.filter (fun r => decide (rKey μ r = k))).map (fun r => r.score)).sum

/-- A `SearchResult` with its score zeroed: the frame (all fields other
than `score`). -/
def frameOf (μ : Type) (r : SearchResult μ) : SearchResult μ := { r with score := 0 }

/-- A character list containing at least one non-whitespace character. -/
def hasInk (s : List Char) : Prop := ∃ c ∈ s, isSpaceChar c = false

/-- The keys of the fusion dict, in insertion order. -/
def mapKeys (μ : Type) (m : List ((Int × Int) × SearchResult μ)) : List (Int × Int) :=
  m.map (fun p => p.1)

/-- Total score stored under key `k` in the fusion dict. -/
def mapScoreSum (μ : Type) (m : List ((Int × Int) × SearchResult μ)) (k : Int × Int) : ℚ :=
  ((m.filter (fun p => decide (p.1 = k))).map (fun p => p.2.score)).sum

/-- The frames (score-erased results) stored under key `k` in the fusion dict. -/
def mapFramesAt (μ : Type) (m : List ((Int × Int) × SearchResult μ)) (k : Int × Int) :
    List (SearchResult μ) :=
  (m.filter (fun p => decide (p.1 = k))).map (fun p => frameOf μ p.2)

/-- The frames of the results carrying key `k` in a result list. -/
def resFramesAt (μ : Type) (l : List (SearchResult μ)) (k : Int × Int) :
    List (SearchResult μ) :=
  (l.filter (fun r => decide (rKey μ r = k))).map (frameOf μ)

/-- A semantic hit used as concrete fusion input. -/
def semResExample : SearchResult Unit := ⟨1, 1, "alpha".toList, 7 / 10, "semantic", ()⟩

/-- A keyword hit with the same `(chunk_id, document_id)` key. -/
def kwResExample : SearchResult Unit := ⟨1, 1, "alpha".toList, 3 / 10, "keyword", ()⟩

/-- The keyword document of the spec's end-to-end scenario. -/
def kwDocExample : KwDoc Unit :=
  ⟨1, 1, "Our refund policy allows returns within 30 days.".toList, ()⟩

/-- The keyword hit the scenario's document produces for `"refund policy"`
with keyword weight `0.3`: two terms, one occurrence each, score
`2 * (1 / 1.1) * 0.3 = 6 / 11`. -/
def kwResultExample : SearchResult Unit :=
  ⟨1, 1, "Our refund policy allows returns within 30 days.".toList, 6 / 11, "keyword", ()⟩

/-! ## Helper lemmas: slicing and stripping -/

theorem length_pySlice_le {α : Type} (s : List α) (a : Int) (cs : Nat) :
    (pySlice s a (a + (cs : Int))).length ≤ cs := by
  have h1 : pySliceIdx s.length (a + (cs : Int)) ≤ pySliceIdx s.length a + cs := by
    unfold pySliceIdx; split_ifs <;> omega
  unfold pySlice
  rw [List.length_drop, List.length_take]
  omega

theorem pyRfind_lt_length (s : List Char) (c : Char) : pyRfind s c < (s.length : Int) := by
  rw [pyRfind]
  cases s.reverse.findIdx? (· == c) with
  | none => show (-1 : Int) < (s.length : Int); omega
  | some i => show (s.length : Int) - 1 - (i : Int) < (s.length : Int); omega

theorem dropWhile_first_not {p : Char → Bool} :
    ∀ l : List Char, l.dropWhile p ≠ [] → ∃ c ∈ l.dropWhile p, p c = false := by
  intro l
  induction l with
  | nil => intro h; simp at h
  | cons a t ih =>
    intro h
    by_cases ha : p a
    · rw [List.dropWhile_cons_of_pos ha] at *
      exact ih h
    · rw [List.dropWhile_cons_of_neg ha] at *
      exact ⟨a, List.mem_cons_self a t, by simpa using ha⟩

theorem hasInk_stripChars_of_ne {s : List Char} (h : stripChars s ≠ []) :
    hasInk (stripChars s) := by
  unfold stripChars at h ⊢
  have h2 : (s.dropWhile isSpaceChar).reverse.dropWhile isSpaceChar ≠ [] := by
    intro hh; exact h (by rw [hh]; rfl)
  obtain ⟨c, hc, hcp⟩ := dropWhile_first_not _ h2
  exact ⟨c, by simpa using hc, hcp⟩

theorem stripChars_eq_nil_all_space {s : List Char} (h : stripChars s = []) :
    ∀ c ∈ s, isSpaceChar c = true := by
  intro c hc
  unfold stripChars at h
  rw [List.reverse_eq_nil_iff, List.dropWhile_eq_nil_iff] at h
  rw [← List.takeWhile_append_dropWhile (p := isSpaceChar) (l := s)] at hc
  rcases List.mem_append.mp hc with hmem | hmem
  · exact List.mem_takeWhile_imp hmem
  · exact h c (by simpa using hmem)

theorem stripChars_ne_nil_of_hasInk {s : List Char} (h : hasInk s) : stripChars s ≠ [] := by
  intro hnil
  obtain ⟨c, hc, hcp⟩ := h
  have := stripChars_eq_nil_all_space hnil c hc
  rw [this] at hcp
  exact Bool.noConfusion hcp

theorem sentencesOf_hasInk (text : List Char) : ∀ s ∈ sentencesOf text, hasInk s := by
  intro s hs
  unfold sentencesOf at hs
  rw [List.mem_filter] at hs
  obtain ⟨hmem, hne⟩ := hs
  rw [List.mem_map] at hmem
  obtain ⟨x, _, rfl⟩ := hmem
  apply hasInk_stripChars_of_ne
  simpa [List.isEmpty_iff] using hne

theorem hasInk_intercalate_of_head {s : List Char} {rest : List (List Char)}
    (h : hasInk s) : hasInk (List.intercalate [' '] (s :: rest)) := by
  obtain ⟨c, hc, hcp⟩ := h
  refine ⟨c, ?_, hcp⟩
  unfold List.intercalate
  apply List.mem_flatten.mpr
  refine ⟨s, ?_, hc⟩
  cases rest with
  | nil => simp [List.intersperse]
  | cons b bs => simp [List.intersperse]

/-! ## Fixed-size chunking: divergence when `overlap >= chunk_size` (C2) -/

theorem fixedEnd_le (cs : Nat) (text : List Char) (start : Int) :
    fixedEnd cs text start ≤ start + (cs : Int) := by
  unfold fixedEnd
  split
  · have h1 := pyRfind_lt_length (pySlice text start (start + (cs : Int))) '.'
    have h2 := length_pySlice_le text start cs
    omega
  · omega

theorem fixedChunkLoop_none (μ : Type) (cs ov : Nat) (text : List Char) (base : μ)
    (hov : cs ≤ ov) :
    ∀ (fuel : Nat) (start : Int) (idx : Nat) (acc : List (Chunk (μ × FixedMeta))),
      start < (text.length : Int) →
      fixedChunkLoop μ cs ov text base fuel start idx acc = none := by
  intro fuel
  induction fuel with
  | zero => intro start idx acc _; rfl
  | succ n ih =>
    intro start idx acc h
    rw [fixedChunkLoop, if_pos h]
    apply ih
    have := fixedEnd_le cs text start
    omega

/-- C2. For every fixed-size configuration with `overlap >= chunk_size`
and every non-empty text, `FixedSizeChunking.chunk` never finishes: for any
amount of fuel the loop is still running. The code does NOT raise a
configuration error (`__init__` stores the parameters unvalidated, and no
`ConfigurationError` exists in the code base); it loops forever, which is
what the spec said must be guarded against. -/
theorem fixedChunk_overlap_ge_size_diverges (μ : Type) (cs ov : Nat) (text : List Char)
    (base : μ) (fuel : Nat) (hov : cs ≤ ov) (htext : text ≠ []) :
    fixedChunk μ cs ov text base fuel = none := by
  apply fixedChunkLoop_none μ cs ov text base hov
  have : 0 < text.length := List.length_pos.mpr htext
  omega

/-- Witness for C2 at the spec's own example, `chunk_size=10, overlap=15`,
on the non-empty text `"hello world"`. -/
theorem fixedChunk_overlap_ge_size_diverges_witness :
    (10 ≤ 15 ∧ "hello world".toList ≠ []) ∧
      fixedChunk Unit 10 15 "hello world".toList () 50 = none :=
  ⟨⟨by decide, by decide⟩,
    fixedChunk_overlap_ge_size_diverges Unit 10 15 "hello world".toList () 50
      (by decide) (by decide)⟩

/-! ## Sentence chunking: negative advance step (C10) -/

/-- C10. With `overlap_sentences > sentences_per_chunk` the advance
step of `SentenceChunking.chunk` is negative, `range(0, n, step)` is empty,
and the call silently returns the empty chunk list for every text — no
error is raised. -/
theorem sentenceChunk_negative_step_returns_empty (μ : Type) (spc os : Int)
    (text : List Char) (base : μ) (h : spc < os) :
    sentenceChunk μ spc os text base = .ok [] := by
  unfold sentenceChunk
  rw [if_neg (by omega)]
  unfold sentenceChunkBody pyRangeStep
  rw [if_pos (by omega)]
  rfl

/-- Witness for C10 with `sentences_per_chunk=5, overlap_sentences=7`. -/
theorem sentenceChunk_negative_step_returns_empty_witness :
    (5 : Int) < 7 ∧ sentenceChunk Unit 5 7 "One. Two! Three?".toList () = .ok [] :=
  ⟨by decide,
    sentenceChunk_negative_step_returns_empty Unit 5 7 "One. Two! Three?".toList () (by decide)⟩

/-! ## Chunk content non-emptiness (C8) -/

/-- C8, counterexample. `FixedSizeChunking` (the default parameters
1024/128) on the whitespace-only text `" "` returns a chunk whose content
is the empty string: the claim "every produced chunk has non-empty content
after trimming" is false for the fixed-size strategy, which strips the
window text and appends it without any emptiness guard. -/
theorem fixedChunk_empty_content_counterexample :
    fixedChunk Unit 1024 128 " ".toList () 2 =
      some [⟨[], 0, ((), ⟨0, 1024, 1⟩)⟩] := by decide

theorem foldl_pair_snd_preserve {β γ : Type} (P : γ → Prop)
    (f : Nat × List γ → β → Nat × List γ)
    (hf : ∀ st b, (∀ x ∈ st.2, P x) → ∀ c ∈ (f st b).2, P c) :
    ∀ (l : List β) (st : Nat × List γ), (∀ x ∈ st.2, P x) →
      ∀ c ∈ (l.foldl f st).2, P c := by
  intro l
  induction l with
  | nil => intro st h; simpa using h
  | cons b t ih => intro st h; exact ih (f st b) (hf st b h)

theorem sentenceChunkBody_content (μ : Type) (spc os : Int) (sentences : List (List Char))
    (base : μ) : ∀ c ∈ sentenceChunkBody μ spc os sentences base,
      stripChars c.content ≠ [] := by
  unfold sentenceChunkBody
  intro c hc
  refine foldl_pair_snd_preserve (fun c => stripChars c.content ≠ []) _ ?_ _ _ (by simp) c hc
  · intro st b h c hc
    dsimp only at hc
    split at hc
    case isTrue hne =>
      rcases List.mem_append.mp hc with hmem | hmem
      · exact h c hmem
      · have hec : c = ⟨List.intercalate [' '] (pySlice sentences (b : Int) ((b : Int) + spc)),
            st.1, (base, ⟨b, b + (pySlice sentences (b : Int) ((b : Int) + spc)).length,
              (pySlice sentences (b : Int) ((b : Int) + spc)).length⟩)⟩ := by
          simpa using hmem
        rw [hec]
        exact hne
    case isFalse => exact h c hc

theorem semanticChunkLoop_content (μ : Type) (mcs : Nat) (base : μ) :
    ∀ (ss cur : List (List Char)) (size idx : Nat) (acc : List (Chunk (μ × String))),
      (∀ s ∈ ss, hasInk s) → (∀ s ∈ cur, hasInk s) →
      (∀ c ∈ acc, stripChars c.content ≠ []) →
      ∀ c ∈ semanticChunkLoop μ mcs base ss cur size idx acc,
        stripChars c.content ≠ [] := by
  intro ss
  induction ss with
  | nil =>
    intro cur size idx acc _ hcur hacc c hc
    rw [semanticChunkLoop] at hc
    split at hc
    case isTrue hne =>
      rcases List.mem_append.mp hc with hmem | hmem
      · exact hacc c hmem
      · have hec : c = ⟨List.intercalate [' '] cur, idx, (base, "semantic")⟩ := by
          simpa using hmem
        rw [hec]
        cases cur with
        | nil => exact absurd rfl hne
        | cons s rest =>
          exact stripChars_ne_nil_of_hasInk
            (hasInk_intercalate_of_head (hcur s (List.mem_cons_self s rest)))
    case isFalse => exact hacc c hc
  | cons s rest ih =>
    intro cur size idx acc hss hcur hacc c hc
    rw [semanticChunkLoop] at hc
    split at hc
    case isTrue hcond =>
      refine ih [s] (s.length + 1) (idx + 1)
        (acc ++ [⟨List.intercalate [' '] cur, idx, (base, "semantic")⟩])
        (fun x hx => hss x (List.mem_cons_of_mem s hx))
        (fun x hx => by rw [List.mem_singleton.mp hx]; exact hss s (List.mem_cons_self s rest))
        ?_ c hc
      intro x hx
      rcases List.mem_append.mp hx with hmem | hmem
      · exact hacc x hmem
      · have hec : x = ⟨List.intercalate [' '] cur, idx, (base, "semantic")⟩ := by
          simpa using hmem
        rw [hec]
        cases cur with
        | nil => exact absurd rfl hcond.2
        | cons u us =>
          exact stripChars_ne_nil_of_hasInk
            (hasInk_intercalate_of_head (hcur u (List.mem_cons_self u us)))
    case isFalse =>
      refine ih (cur ++ [s]) (size + s.length + 1) idx acc
        (fun x hx => hss x (List.mem_cons_of_mem s hx)) ?_ hacc c hc
      intro x hx
      rcases List.mem_append.mp hx with hmem | hmem
      · exact hcur x hmem
      · rw [List.mem_singleton.mp hmem]
        exact hss s (List.mem_cons_self s rest)

/-- C8, amended. Every chunk produced by `SentenceChunking.chunk` (on a
successful, non-`ValueError` run) and by `SemanticChunking.chunk` has
non-empty content after trimming; the invariant fails only for the
fixed-size strategy (see the counterexample), which can emit a chunk whose
stripped window text is empty. -/
theorem chunk_content_nonempty_amended (μ : Type) (spc os : Int) (mcs : Nat)
    (text text' : List Char) (base base' : μ) (l : List (Chunk (μ × SentMeta)))
    (c : Chunk (μ × SentMeta)) (c' : Chunk (μ × String))
    (h1 : sentenceChunk μ spc os text base = .ok l) (h2 : c ∈ l)
    (h3 : c' ∈ semanticChunk μ mcs text' base') :
    stripChars c.content ≠ [] ∧ stripChars c'.content ≠ [] := by
  constructor
  · unfold sentenceChunk at h1
    split at h1
    · exact absurd h1 (by simp)
    · have hl : l = sentenceChunkBody μ spc os (sentencesOf text) base := by
        injection h1 with h; exact h.symm
      exact sentenceChunkBody_content μ spc os (sentencesOf text) base c (hl ▸ h2)
  · exact semanticChunkLoop_content μ mcs base' (sentencesOf text') [] 0 0 []
      (sentencesOf_hasInk text') (by simp) (by simp) c' h3

/-- Witness for the amended C8 on concrete texts for both strategies. -/
theorem chunk_content_nonempty_amended_witness :
    stripChars (Chunk.content (μ := Unit × SentMeta)
        ⟨"One. Two!".toList, 0, ((), ⟨0, 2, 2⟩)⟩) ≠ [] ∧
    stripChars (Chunk.content (μ := Unit × String)
        ⟨"Hi there.".toList, 0, ((), "semantic")⟩) ≠ [] :=
  chunk_content_nonempty_amended Unit 2 1 30 "One. Two!".toList "Hi there.".toList () ()
    [⟨"One. Two!".toList, 0, ((), ⟨0, 2, 2⟩)⟩, ⟨"Two!".toList, 1, ((), ⟨1, 2, 1⟩)⟩]
    ⟨"One. Two!".toList, 0, ((), ⟨0, 2, 2⟩)⟩
    ⟨"Hi there.".toList, 0, ((), "semantic")⟩
    rfl (by decide) (by decide)

/-! ## Keyword scoring (C6) -/

theorem char_toLower_idem (c : Char) : c.toLower.toLower = c.toLower := by
  by_cases h : c.toNat ≥ 65 ∧ c.toNat ≤ 90
  · have h1 : c.toLower = Char.ofNat (c.toNat + 32) := by
      simp only [Char.toLower]
      rw [if_pos h]
    have hv : Nat.isValidChar (c.toNat + 32) := Or.inl (by omega)
    have ht : (Char.ofNat (c.toNat + 32)).toNat = c.toNat + 32 := by
      unfold Char.ofNat
      rw [dif_pos hv]
      simp [Char.ofNatAux, Char.toNat, UInt32.toNat]
    rw [h1]
    simp only [Char.toLower]
    rw [if_neg (by rw [ht]; omega)]
  · have h1 : c.toLower = c := by
      simp only [Char.toLower]
      rw [if_neg h]
    rw [h1, h1]

theorem pyLower_idem (s : List Char) : pyLower (pyLower s) = pyLower s := by
  unfold pyLower
  rw [List.map_map]
  exact List.map_congr_left (fun c _ => char_toLower_idem c)

theorem tfScore_zero : tfScore 0 = 0 := by norm_num [tfScore]

theorem tfScore_mono {c c' : Nat} (h : c ≤ c') : tfScore c ≤ tfScore c' := by
  unfold tfScore
  rw [div_le_div_iff₀ (by positivity) (by positivity)]
  have hq : (c : ℚ) ≤ (c' : ℚ) := by exact_mod_cast h
  nlinarith

theorem calculateScore_eq_sum (terms : List (List Char)) (content : List Char) :
    calculateScore terms content =
      (terms.map (fun t => tfScore (strCount t (pyLower content)))).sum := by
  unfold calculateScore
  suffices h : ∀ (ts : List (List Char)) (a : ℚ),
      (ts.foldl (fun score term =>
        let count := strCount term (pyLower content)
        if 0 < count then score + tfScore count else score) a) =
        a + (ts.map (fun t => tfScore (strCount t (pyLower content)))).sum by
    simpa using h terms 0
  intro ts
  induction ts with
  | nil => intro a; simp
  | cons t rest ih =>
    intro a
    rw [List.foldl_cons, List.map_cons, List.sum_cons, ih]
    dsimp only
    split
    · ring
    case isFalse hcount =>
      have h0 : strCount t (pyLower content) = 0 := by omega
      rw [h0, tfScore_zero]
      ring

theorem keywordFold_mem (μ : Type) (w : ℚ) (terms : List (List Char)) :
    ∀ (ds : List (KwDoc μ)) (acc : List (SearchResult μ)) (r : SearchResult μ),
      r ∈ ds.foldl (fun acc d =>
        let score := calculateScore terms (pyLower d.content)
        if 0 < score then
          acc ++ [⟨d.id, d.document_id, d.content, score * w, "keyword", d.metadata⟩]
        else acc) acc →
      r ∈ acc ∨ ∃ d ∈ ds, 0 < calculateScore terms (pyLower d.content) ∧
        r = ⟨d.id, d.document_id, d.content,
          calculateScore terms (pyLower d.content) * w, "keyword", d.metadata⟩ := by
  intro ds
  induction ds with
  | nil => intro acc r h; exact Or.inl h
  | cons d rest ih =>
    intro acc r h
    rw [List.foldl_cons] at h
    rcases ih _ r h with hmem | ⟨d', hd', hpos, heq⟩
    · dsimp only at hmem
      split at hmem
      case isTrue hpos =>
        rcases List.mem_append.mp hmem with h1 | h1
        · exact Or.inl h1
        · exact Or.inr ⟨d, List.mem_cons_self d rest, hpos, by simpa using h1⟩
      case isFalse => exact Or.inl hmem
    · exact Or.inr ⟨d', List.mem_cons_of_mem d hd', hpos, heq⟩

theorem keywordSearchOk_mem (μ : Type) (w : ℚ) (q : List Char) (docs : List (KwDoc μ))
    (top_k : Nat) (r : SearchResult μ) (hr : r ∈ keywordSearchOk μ w q docs top_k) :
    ∃ d ∈ docs, 0 < calculateScore (normalizeQuery q) (pyLower d.content) ∧
      r = ⟨d.id, d.document_id, d.content,
        calculateScore (normalizeQuery q) (pyLower d.content) * w, "keyword", d.metadata⟩ := by
  unfold keywordSearchOk at hr
  dsimp only at hr
  split at hr
  · simp at hr
  · have h1 := List.mem_of_mem_take hr
    have h2 := ((List.perm_insertionSort (scoreGe μ) _).mem_iff).mp h1
    rcases keywordFold_mem μ w (normalizeQuery q) docs [] r h2 with habs | hgood
    · simp at habs
    · exact hgood

/-- C6. The keyword per-document score is the sum, over query terms, of
the saturating value `c / (1 + 0.1 c)` of the term's non-overlapping
occurrence count `c` in the lowercased document text (lowercasing is
idempotent, so the double `lower()` of the code equals one); the per-term
value is monotone in `c` and sub-linear (`score(10) < 10 * score(1)`); and
every result returned by `KeywordSearch.search` originates from a document
with strictly positive accumulated score (zero-score documents are
excluded). -/
theorem keyword_score_formula (μ : Type) :
    (∀ (terms : List (List Char)) (content : List Char),
        calculateScore terms content =
          (terms.map (fun t => tfScore (strCount t (pyLower content)))).sum) ∧
    (∀ s : List Char, pyLower (pyLower s) = pyLower s) ∧
    (∀ c c' : Nat, c ≤ c' → tfScore c ≤ tfScore c') ∧
    tfScore 10 < 10 * tfScore 1 ∧
    (∀ (w : ℚ) (q : List Char) (docs : List (KwDoc μ)) (top_k : Nat) (r : SearchResult μ),
        r ∈ keywordSearchOk μ w q docs top_k →
        ∃ d ∈ docs, 0 < calculateScore (normalizeQuery q) (pyLower d.content) ∧
          r = ⟨d.id, d.document_id, d.content,
            calculateScore (normalizeQuery q) (pyLower d.content) * w, "keyword", d.metadata⟩) :=
  ⟨calculateScore_eq_sum, pyLower_idem, fun _ _ h => tfScore_mono h,
    by norm_num [tfScore], keywordSearchOk_mem μ⟩

/-- Witness for C6: monotonicity applied at `3 ≤ 5`, and the membership
clause applied to the spec's own scenario (`"refund policy"` against one
matching document with keyword weight `0.3`). -/
theorem keyword_score_formula_witness :
    (3 ≤ 5 ∧ tfScore 3 ≤ tfScore 5) ∧
    (∃ d ∈ [kwDocExample], 0 < calculateScore (normalizeQuery "refund policy".toList)
        (pyLower d.content) ∧
      kwResultExample = ⟨d.id, d.document_id, d.content,
        calculateScore (normalizeQuery "refund policy".toList) (pyLower d.content) * (3 / 10),
        "keyword", d.metadata⟩) :=
  ⟨⟨by decide, (keyword_score_formula Unit).2.2.1 3 5 (by decide)⟩,
    (keyword_score_formula Unit).2.2.2.2 (3 / 10) "refund policy".toList [kwDocExample] 10
      kwResultExample (by with_unfolding_all decide)⟩

/-! ## Fusion engine (C1, C9) -/

theorem mapKeys_cons (μ : Type) (p : (Int × Int) × SearchResult μ) (m) :
    mapKeys μ (p :: m) = p.1 :: mapKeys μ m := rfl

theorem mapScoreSum_cons (μ : Type) (x : (Int × Int) × SearchResult μ) (m) (k) :
    mapScoreSum μ (x :: m) k = (if x.1 = k then x.2.score else 0) + mapScoreSum μ m k := by
  unfold mapScoreSum
  rw [List.filter_cons]
  by_cases h : x.1 = k <;> simp [h]

theorem mapFramesAt_cons (μ : Type) (x : (Int × Int) × SearchResult μ) (m) (k) :
    mapFramesAt μ (x :: m) k =
      (if x.1 = k then [frameOf μ x.2] else []) ++ mapFramesAt μ m k := by
  unfold mapFramesAt
  rw [List.filter_cons]
  by_cases h : x.1 = k <;> simp [h]

theorem keyScoreSum_cons (μ : Type) (r : SearchResult μ) (l) (k) :
    keyScoreSum μ (r :: l) k = (if rKey μ r = k then r.score else 0) + keyScoreSum μ l k := by
  unfold keyScoreSum
  rw [List.filter_cons]
  by_cases h : rKey μ r = k <;> simp [h]

theorem resFramesAt_cons (μ : Type) (r : SearchResult μ) (l) (k) :
    resFramesAt μ (r :: l) k =
      (if rKey μ r = k then [frameOf μ r] else []) ++ resFramesAt μ l k := by
  unfold resFramesAt
  rw [List.filter_cons]
  by_cases h : rKey μ r = k <;> simp [h]

theorem insertResult_any_iff (μ : Type) (m : List ((Int × Int) × SearchResult μ))
    (r : SearchResult μ) :
    (m.any (fun p => decide (p.1 = rKey μ r)) = true) ↔ rKey μ r ∈ mapKeys μ m := by
  rw [List.any_eq_true]
  unfold mapKeys
  rw [List.mem_map]
  constructor
  · rintro ⟨p, hp, hd⟩; exact ⟨p, hp, by simpa using hd⟩
  · rintro ⟨p, hp, hd⟩; exact ⟨p, hp, by simpa using hd⟩

theorem mapKeys_insertResult (μ : Type) (m) (r : SearchResult μ) :
    mapKeys μ (insertResult μ m r) =
      if rKey μ r ∈ mapKeys μ m then mapKeys μ m else mapKeys μ m ++ [rKey μ r] := by
  unfold insertResult
  by_cases h : rKey μ r ∈ mapKeys μ m
  · rw [if_pos ((insertResult_any_iff μ m r).mpr h), if_pos h]
    unfold mapKeys
    rw [List.map_map]
    apply List.map_congr_left
    intro p _
    dsimp only [Function.comp]
    split <;> rfl
  · rw [if_neg (fun hc => h ((insertResult_any_iff μ m r).mp hc)), if_neg h]
    simp [mapKeys]

theorem mapKeys_nodup_insertResult (μ : Type) (m) (r : SearchResult μ)
    (h : (mapKeys μ m).Nodup) : (mapKeys μ (insertResult μ m r)).Nodup := by
  rw [mapKeys_insertResult]
  split
  · exact h
  case isFalse hmem => simp [List.nodup_append, h, hmem]

theorem mapKeys_mono_insertResult (μ : Type) (m) (r : SearchResult μ) (k : Int × Int)
    (h : k ∈ mapKeys μ m) : k ∈ mapKeys μ (insertResult μ m r) := by
  rw [mapKeys_insertResult]
  split
  · exact h
  · exact List.mem_append_left _ h

theorem rKey_mem_insertResult (μ : Type) (m) (r : SearchResult μ) :
    rKey μ r ∈ mapKeys μ (insertResult μ m r) := by
  rw [mapKeys_insertResult]
  split
  case isTrue h => exact h
  case isFalse h => exact List.mem_append_right _ (List.mem_singleton.mpr rfl)

theorem mapScoreSum_bump (μ : Type) (r : SearchResult μ) (k : Int × Int) :
    ∀ m : List ((Int × Int) × SearchResult μ), (mapKeys μ m).Nodup →
      rKey μ r ∈ mapKeys μ m →
      mapScoreSum μ
        (m.map (fun p =>
          if p.1 = rKey μ r then (p.1, { p.2 with score := p.2.score + r.score }) else p)) k =
        mapScoreSum μ m k + (if rKey μ r = k then r.score else 0) := by
  intro m
  induction m with
  | nil => intro _ hmem; simp [mapKeys] at hmem
  | cons p rest ih =>
    intro hnd hmem
    rw [mapKeys_cons, List.nodup_cons] at hnd
    rw [mapKeys_cons] at hmem
    rw [List.map_cons]
    by_cases hp : p.1 = rKey μ r
    · have hnotin : rKey μ r ∉ mapKeys μ rest := hp ▸ hnd.1
      have hrest : rest.map (fun p =>
          if p.1 = rKey μ r then (p.1, { p.2 with score := p.2.score + r.score }) else p) =
          rest := by
        conv_rhs => rw [← List.map_id rest]
        apply List.map_congr_left
        intro q hq
        have hq1 : q.1 ≠ rKey μ r :=
          fun he => hnotin (he ▸ List.mem_map_of_mem (fun p => p.1) hq)
        simp [hq1]
      rw [if_pos hp, hrest, mapScoreSum_cons, mapScoreSum_cons]
      dsimp only
      by_cases hk : p.1 = k
      · rw [if_pos hk, if_pos hk, if_pos (by rw [← hp]; exact hk)]
        ring
      · rw [if_neg hk, if_neg hk, if_neg (by rw [← hp]; exact hk)]
        ring
    · have hmem' : rKey μ r ∈ mapKeys μ rest := by
        rcases List.mem_cons.mp hmem with h1 | h1
        · exact absurd h1.symm hp
        · exact h1
      rw [if_neg hp, mapScoreSum_cons, mapScoreSum_cons, ih hnd.2 hmem']
      ring

theorem mapScoreSum_insertResult (μ : Type) (m) (r : SearchResult μ) (k : Int × Int)
    (h : (mapKeys μ m).Nodup) :
    mapScoreSum μ (insertResult μ m r) k =
      mapScoreSum μ m k + (if rKey μ r = k then r.score else 0) := by
  unfold insertResult
  by_cases hmem : rKey μ r ∈ mapKeys μ m
  · rw [if_pos ((insertResult_any_iff μ m r).mpr hmem)]
    exact mapScoreSum_bump μ r k m h hmem
  · rw [if_neg (fun hc => hmem ((insertResult_any_iff μ m r).mp hc))]
    unfold mapScoreSum
    rw [List.filter_append, List.map_append, List.sum_append]
    congr 1
    by_cases hk : rKey μ r = k <;> simp [hk]

theorem mapFramesAt_map_bump (μ : Type) (r : SearchResult μ) (k : Int × Int) (m) :
    mapFramesAt μ
      (m.map (fun p =>
        if p.1 = rKey μ r then (p.1, { p.2 with score := p.2.score + r.score }) else p)) k =
      mapFramesAt μ m k := by
  induction m with
  | nil => rfl
  | cons p rest ih =>
    rw [List.map_cons, mapFramesAt_cons, mapFramesAt_cons, ih]
    congr 1
    by_cases hp : p.1 = rKey μ r
    · rw [if_pos hp]
      rfl
    · rw [if_neg hp]

theorem mapFramesAt_insertResult (μ : Type) (m) (r : SearchResult μ) (k : Int × Int) :
    mapFramesAt μ (insertResult μ m r) k =
      mapFramesAt μ m k ++
        (if rKey μ r ∉ mapKeys μ m ∧ rKey μ r = k then [frameOf μ r] else []) := by
  unfold insertResult
  by_cases hmem : rKey μ r ∈ mapKeys μ m
  · rw [if_pos ((insertResult_any_iff μ m r).mpr hmem), mapFramesAt_map_bump]
    simp [hmem]
  · rw [if_neg (fun hc => hmem ((insertResult_any_iff μ m r).mp hc))]
    unfold mapFramesAt
    rw [List.filter_append, List.map_append]
    congr 1
    by_cases hk : rKey μ r = k
    · simp only [hk, hmem]
      rw [List.filter_cons, if_pos (by simp [hk])]
      simp [hk ▸ hmem]
    · simp [hk]

theorem mapFramesAt_eq_nil (μ : Type) (m) (k : Int × Int) (h : k ∉ mapKeys μ m) :
    mapFramesAt μ m k = [] := by
  unfold mapFramesAt
  rw [List.filter_eq_nil_iff.mpr, List.map_nil]
  intro p hp
  simp only [decide_eq_true_eq]
  exact fun hpk => h (hpk ▸ List.mem_map_of_mem (fun p => p.1) hp)

theorem mapFramesAt_ne_nil (μ : Type) (m) (k : Int × Int) (h : k ∈ mapKeys μ m) :
    mapFramesAt μ m k ≠ [] := by
  unfold mapKeys at h
  rw [List.mem_map] at h
  obtain ⟨p, hp, hpk⟩ := h
  unfold mapFramesAt
  intro hc
  rw [List.map_eq_nil_iff, List.filter_eq_nil_iff] at hc
  exact hc p hp (by simpa using hpk)

theorem mapKeys_nodup_foldl (μ : Type) :
    ∀ (l : List (SearchResult μ)) (m), (mapKeys μ m).Nodup →
      (mapKeys μ (l.foldl (insertResult μ) m)).Nodup := by
  intro l
  induction l with
  | nil => intro m h; exact h
  | cons r rest ih =>
    intro m h
    rw [List.foldl_cons]
    exact ih _ (mapKeys_nodup_insertResult μ m r h)

theorem mapKeys_mem_foldl (μ : Type) (k : Int × Int) :
    ∀ (l : List (SearchResult μ)) (m),
      (k ∈ mapKeys μ m ∨ ∃ r ∈ l, rKey μ r = k) →
      k ∈ mapKeys μ (l.foldl (insertResult μ) m) := by
  intro l
  induction l with
  | nil =>
    intro m h
    rcases h with h | ⟨r, hr, _⟩
    · exact h
    · simp at hr
  | cons r rest ih =>
    intro m h
    rw [List.foldl_cons]
    apply ih
    rcases h with h | ⟨r', hr', hk'⟩
    · exact Or.inl (mapKeys_mono_insertResult μ m r k h)
    · rcases List.mem_cons.mp hr' with he | he
      · exact Or.inl (by rw [← hk', he]; exact rKey_mem_insertResult μ m r)
      · exact Or.inr ⟨r', he, hk'⟩

theorem mapScoreSum_foldl (μ : Type) (k : Int × Int) :
    ∀ (l : List (SearchResult μ)) (m), (mapKeys μ m).Nodup →
      mapScoreSum μ (l.foldl (insertResult μ) m) k =
        mapScoreSum μ m k + keyScoreSum μ l k := by
  intro l
  induction l with
  | nil => intro m _; simp [keyScoreSum]
  | cons r rest ih =>
    intro m hnd
    rw [List.foldl_cons, ih _ (mapKeys_nodup_insertResult μ m r hnd),
      mapScoreSum_insertResult μ m r k hnd, keyScoreSum_cons]
    ring

theorem take_one_append_left {α : Type} (l l' : List α) (h : l ≠ []) :
    (l ++ l').take 1 = l.take 1 := by
  cases l with
  | nil => exact absurd rfl h
  | cons a t => simp

theorem mapFramesAt_length_le_one (μ : Type) :
    ∀ (m : List ((Int × Int) × SearchResult μ)) (k : Int × Int),
      (mapKeys μ m).Nodup → (mapFramesAt μ m k).length ≤ 1 := by
  intro m
  induction m with
  | nil => intro k _; simp [mapFramesAt]
  | cons p rest ih =>
    intro k hnd
    rw [mapKeys_cons, List.nodup_cons] at hnd
    rw [mapFramesAt_cons]
    by_cases hk : p.1 = k
    · rw [if_pos hk, mapFramesAt_eq_nil μ rest k (hk ▸ hnd.1)]
      simp
    · rw [if_neg hk]
      simpa using ih k hnd.2

theorem mapFramesAt_foldl (μ : Type) (k : Int × Int) :
    ∀ (l : List (SearchResult μ)) (m), (mapKeys μ m).Nodup →
      mapFramesAt μ (l.foldl (insertResult μ) m) k =
        (mapFramesAt μ m k ++ resFramesAt μ l k).take 1 := by
  intro l
  induction l with
  | nil =>
    intro m hnd
    rw [List.foldl_nil]
    rw [show resFramesAt μ [] k = [] from rfl, List.append_nil]
    exact (List.take_of_length_le (mapFramesAt_length_le_one μ m k hnd)).symm
  | cons r rest ih =>
    intro m hnd
    rw [List.foldl_cons, ih _ (mapKeys_nodup_insertResult μ m r hnd),
      mapFramesAt_insertResult, resFramesAt_cons]
    by_cases hk : rKey μ r = k
    · by_cases hmem : rKey μ r ∈ mapKeys μ m
      · rw [if_neg (fun hc => hc.1 hmem), if_pos hk, List.append_nil]
        have hne : mapFramesAt μ m k ≠ [] := mapFramesAt_ne_nil μ m k (hk ▸ hmem)
        rw [take_one_append_left _ _ hne, take_one_append_left _ _ hne]
      · rw [if_pos ⟨hmem, hk⟩, if_pos hk, mapFramesAt_eq_nil μ m k (hk ▸ hmem)]
        simp
    · rw [if_neg (fun hc => hk hc.2), if_neg hk, List.append_nil]
      simp

theorem foldl_key_consistent (μ : Type) :
    ∀ (l : List (SearchResult μ)) (m), (∀ p ∈ m, p.1 = rKey μ p.2) →
      ∀ p ∈ l.foldl (insertResult μ) m, p.1 = rKey μ p.2 := by
  intro l
  induction l with
  | nil => intro m h; exact h
  | cons r rest ih =>
    intro m h
    rw [List.foldl_cons]
    apply ih
    intro p hp
    unfold insertResult at hp
    split at hp
    · rw [List.mem_map] at hp
      obtain ⟨q, hq, rfl⟩ := hp
      split
      case isTrue hq1 =>
        show q.1 = rKey μ { q.2 with score := q.2.score + r.score }
        rw [h q hq]; rfl
      case isFalse => exact h q hq
    · rcases List.mem_append.mp hp with h1 | h1
      · exact h p h1
      · rw [List.mem_singleton.mp h1]

theorem filter_map_snd (μ : Type) (k : Int × Int) :
    ∀ m : List ((Int × Int) × SearchResult μ), (∀ p ∈ m, p.1 = rKey μ p.2) →
      (m.map (fun p => p.2)).filter (fun r => decide (rKey μ r = k)) =
        (m.filter (fun p => decide (p.1 = k))).map (fun p => p.2) := by
  intro m
  induction m with
  | nil => intro _; rfl
  | cons p rest ih =>
    intro h
    have hkey : p.1 = rKey μ p.2 := h p (List.mem_cons_self p rest)
    have htail := ih (fun q hq => h q (List.mem_cons_of_mem p hq))
    rw [List.map_cons, List.filter_cons, List.filter_cons]
    by_cases hk : rKey μ p.2 = k
    · rw [if_pos (by simp [hk]), if_pos (by simp [hkey, hk]), List.map_cons, htail]
    · rw [if_neg (by simp [hk]), if_neg (by simp [hkey, hk]), htail]

theorem frame_restore (μ : Type) (a : SearchResult μ) :
    { frameOf μ a with score := a.score } = a := by
  cases a; rfl

theorem frame_update (μ : Type) (a : SearchResult μ) (s : ℚ) :
    { frameOf μ a with score := s } = { a with score := s } := by
  cases a; rfl

theorem resFramesAt_ne_nil (μ : Type) (l : List (SearchResult μ)) (k : Int × Int)
    (h : ∃ r ∈ l, rKey μ r = k) : resFramesAt μ l k ≠ [] := by
  obtain ⟨r, hr, hk⟩ := h
  unfold resFramesAt
  intro hc
  rw [List.map_eq_nil_iff, List.filter_eq_nil_iff] at hc
  exact hc r hr (by simpa using hk)

theorem take_one_take_one_append {α : Type} (l l' : List α) :
    (l.take 1 ++ l').take 1 = (l ++ l').take 1 := by
  cases l with
  | nil => simp
  | cons a t => simp

/-- Full characterization of the fused entries carrying a given key: at
most one entry survives; its frame is the frame of the first result with
that key (semantic results first), and its score is the total score that
key carries in both input lists. -/
theorem combineResults_char (μ : Type) (sem kw : List (SearchResult μ)) (k : Int × Int) :
    (combineResults μ sem kw).filter (fun r => decide (rKey μ r = k)) =
      ((resFramesAt μ sem k ++ resFramesAt μ kw k).take 1).map
        (fun f => { f with score := keyScoreSum μ sem k + keyScoreSum μ kw k }) := by
  have hbase : ∀ p ∈ ([] : List ((Int × Int) × SearchResult μ)), p.1 = rKey μ p.2 := by simp
  have hnd0 : (mapKeys μ ([] : List ((Int × Int) × SearchResult μ))).Nodup := by
    simp [mapKeys]
  have hconsis := foldl_key_consistent μ kw (sem.foldl (insertResult μ) [])
    (foldl_key_consistent μ sem [] hbase)
  have hnd1 := mapKeys_nodup_foldl μ sem [] hnd0
  have hnd := mapKeys_nodup_foldl μ kw (sem.foldl (insertResult μ) []) hnd1
  have hframes : mapFramesAt μ (kw.foldl (insertResult μ) (sem.foldl (insertResult μ) [])) k =
      (resFramesAt μ sem k ++ resFramesAt μ kw k).take 1 := by
    rw [mapFramesAt_foldl μ k kw _ hnd1, mapFramesAt_foldl μ k sem [] hnd0]
    rw [show mapFramesAt μ ([] : List ((Int × Int) × SearchResult μ)) k = [] from rfl,
      List.nil_append, take_one_take_one_append]
  have hscore : mapScoreSum μ (kw.foldl (insertResult μ) (sem.foldl (insertResult μ) [])) k =
      keyScoreSum μ sem k + keyScoreSum μ kw k := by
    rw [mapScoreSum_foldl μ k kw _ hnd1, mapScoreSum_foldl μ k sem [] hnd0]
    rw [show mapScoreSum μ ([] : List ((Int × Int) × SearchResult μ)) k = 0 from rfl]
    ring
  unfold combineResults
  rw [filter_map_snd μ k _ hconsis, ← hframes, ← hscore]
  have hlen := mapFramesAt_length_le_one μ
    (kw.foldl (insertResult μ) (sem.foldl (insertResult μ) [])) k hnd
  set m := kw.foldl (insertResult μ) (sem.foldl (insertResult μ) []) with hm
  cases hfil : m.filter (fun p => decide (p.1 = k)) with
  | nil =>
    rw [show mapFramesAt μ m k = (m.filter (fun p => decide (p.1 = k))).map
        (fun p => frameOf μ p.2) from rfl, hfil]
    rfl
  | cons p t =>
    have hfr : mapFramesAt μ m k = (p :: t).map (fun p => frameOf μ p.2) := by
      rw [show mapFramesAt μ m k = (m.filter (fun p => decide (p.1 = k))).map
          (fun p => frameOf μ p.2) from rfl, hfil]
    have ht : t = [] := by
      rw [hfr] at hlen
      cases t with
      | nil => rfl
      | cons b bs => simp at hlen
    subst ht
    have hsc : mapScoreSum μ m k = p.2.score := by
      rw [show mapScoreSum μ m k = ((m.filter (fun p => decide (p.1 = k))).map
          (fun p => p.2.score)).sum from rfl, hfil]
      simp
    rw [hfr, hsc]
    simp [frameOf]

/-- C1. For every pair of result lists and every dedup key present in
both, fusion produces exactly one merged entry for that key, its score is
the sum of the (weighted) semantic and keyword scores carried by that key,
and swapping which list is inserted first leaves that summed score
unchanged. -/
theorem combine_results_sums (μ : Type) (sem kw : List (SearchResult μ)) (k : Int × Int)
    (hs : ∃ r ∈ sem, rKey μ r = k) (_hk : ∃ r ∈ kw, rKey μ r = k) :
    ((combineResults μ sem kw).filter (fun r => decide (rKey μ r = k))).length = 1 ∧
    (∀ r ∈ combineResults μ sem kw, rKey μ r = k →
        r.score = keyScoreSum μ sem k + keyScoreSum μ kw k) ∧
    (∀ r ∈ combineResults μ kw sem, rKey μ r = k →
        r.score = keyScoreSum μ sem k + keyScoreSum μ kw k) := by
  have hne : resFramesAt μ sem k ≠ [] := resFramesAt_ne_nil μ sem k hs
  refine ⟨?_, ?_, ?_⟩
  · rw [combineResults_char, List.length_map]
    cases hfs : resFramesAt μ sem k with
    | nil => exact absurd hfs hne
    | cons f fs => simp [hfs]
  · intro r hr hkey
    have hmem : r ∈ (combineResults μ sem kw).filter (fun r => decide (rKey μ r = k)) :=
      List.mem_filter.mpr ⟨hr, by simpa using hkey⟩
    rw [combineResults_char] at hmem
    rw [List.mem_map] at hmem
    obtain ⟨f, _, rfl⟩ := hmem
    rfl
  · intro r hr hkey
    have hmem : r ∈ (combineResults μ kw sem).filter (fun r => decide (rKey μ r = k)) :=
      List.mem_filter.mpr ⟨hr, by simpa using hkey⟩
    rw [combineResults_char] at hmem
    rw [List.mem_map] at hmem
    obtain ⟨f, _, rfl⟩ := hmem
    show keyScoreSum μ kw k + keyScoreSum μ sem k = _
    ring

/-- Witness for C1 on one semantic and one keyword hit sharing key `(1, 1)`. -/
theorem combine_results_sums_witness :
    ((combineResults Unit [semResExample] [kwResExample]).filter
        (fun r => decide (rKey Unit r = (1, 1)))).length = 1 :=
  (combine_results_sums Unit [semResExample] [kwResExample] (1, 1)
    ⟨semResExample, List.mem_singleton.mpr rfl, rfl⟩
    ⟨kwResExample, List.mem_singleton.mpr rfl, rfl⟩).1

/-- C9. When a key occurs exactly once in each input list, the merged
entry is the semantic result object with only its score changed to the
sum: content, `search_type` and metadata are those of the semantic result,
and the keyword result contributes nothing but its score. -/
theorem combine_merged_entry_frame (μ : Type) (sem kw : List (SearchResult μ))
    (k : Int × Int) (rs rk : SearchResult μ)
    (hs : sem.filter (fun r => decide (rKey μ r = k)) = [rs])
    (hk : kw.filter (fun r => decide (rKey μ r = k)) = [rk]) :
    (combineResults μ sem kw).filter (fun r => decide (rKey μ r = k)) =
      [{ rs with score := rs.score + rk.score }] := by
  have hfs : resFramesAt μ sem k = [frameOf μ rs] := by
    unfold resFramesAt; rw [hs]; rfl
  have hfk : resFramesAt μ kw k = [frameOf μ rk] := by
    unfold resFramesAt; rw [hk]; rfl
  have hss : keyScoreSum μ sem k = rs.score := by
    unfold keyScoreSum; rw [hs]; simp
  have hsk : keyScoreSum μ kw k = rk.score := by
    unfold keyScoreSum; rw [hk]; simp
  rw [combineResults_char, hfs, hfk, hss, hsk]
  simp only [List.singleton_append, List.take_succ_cons, List.take_zero, List.map_cons,
    List.map_nil]
  rw [frame_update]

/-- Witness for C9 on the same concrete pair of hits. -/
theorem combine_merged_entry_frame_witness :
    (combineResults Unit [semResExample] [kwResExample]).filter
        (fun r => decide (rKey Unit r = (1, 1))) =
      [{ semResExample with score := semResExample.score + kwResExample.score }] :=
  combine_merged_entry_frame Unit [semResExample] [kwResExample] (1, 1)
    semResExample kwResExample rfl rfl

/-! ## Semantic search error handling (C7) -/

/-- C7, counterexample. A vector store failing with a configuration
error is converted to `.ok []` by the bare `except Exception` handler of
`SemanticSearch.search`; it is not propagated to the caller, contrary to
the claim that configuration errors must propagate. -/
theorem semanticSearch_config_error_counterexample :
    semanticSearch Unit (7 / 10) [] (fun _ _ _ => .error .configurationError) 10 (7 / 10) =
      .ok [] := rfl

/-- C7, amended. `SemanticSearch.search` never propagates any
exception: the call always returns `.ok`, and every failing lookup — any
error class, resource-exhaustion and configuration errors included (they
are `Exception` subclasses, and the handler is a bare `except Exception`)
— yields the empty result list. -/
theorem semanticSearch_fail_soft (μ : Type) (w : ℚ) (emb : List ℚ) (store : VecStore μ)
    (top_k : Nat) (threshold : ℚ) :
    (∃ l, semanticSearch μ w emb store top_k threshold = .ok l) ∧
    (∀ e : PyErr, store emb top_k threshold = .error e →
      semanticSearch μ w emb store top_k threshold = .ok []) := by
  constructor
  · unfold semanticSearch
    cases store emb top_k threshold with
    | error e => exact ⟨[], rfl⟩
    | ok hits => exact ⟨_, rfl⟩
  · intro e hfail
    unfold semanticSearch
    rw [hfail]

/-- Witness for the amended C7 at a store raising a memory error. -/
theorem semanticSearch_fail_soft_witness :
    (∃ l, semanticSearch Unit 1 [] (fun _ _ _ => .error .memoryError) 10 (7 / 10) = .ok l) ∧
      semanticSearch Unit 1 [] (fun _ _ _ => .error .memoryError) 10 (7 / 10) = .ok [] :=
  ⟨(semanticSearch_fail_soft Unit 1 [] (fun _ _ _ => .error .memoryError) 10 (7 / 10)).1,
    (semanticSearch_fail_soft Unit 1 [] (fun _ _ _ => .error .memoryError) 10 (7 / 10)).2
      .memoryError rfl⟩

/-! ## Hybrid search orchestration (C3, C4, C5) -/

theorem keywordSearch_error_eq_empty (μ : Type) (w : ℚ) (q : List Char) (e : PyErr)
    (n : Nat) : keywordSearch μ w q (.error e) n = keywordSearch μ w q (.ok []) n := by
  show [] = keywordSearchOk μ w q [] n
  unfold keywordSearchOk
  dsimp only
  split
  · rfl
  · exact List.take_nil.symm

/-- C4. Hybrid search never raises because one retrieval path failed:
a failing semantic path contributes exactly what an empty semantic answer
would, a failing keyword path likewise, and with both paths failing the
call evaluates to the empty list (the model is a total function into
lists, mirroring the `except Exception` handlers that absorb every error). -/
theorem hybridSearch_degrades (μ : Type) (ws wk : ℚ) (query : List Char) (emb : List ℚ)
    (store : VecStore μ) (docs : List (KwDoc μ)) (e e' : PyErr)
    (reranker : Option (List Char → List Char → ℚ)) (predictFails : Bool) (top_k : Nat) :
    hybridSearch μ ws wk query emb (fun _ _ _ => .error e) (.ok docs) reranker predictFails
        top_k =
      hybridSearch μ ws wk query emb (fun _ _ _ => .ok []) (.ok docs) reranker predictFails
        top_k ∧
    hybridSearch μ ws wk query emb store (.error e') reranker predictFails top_k =
      hybridSearch μ ws wk query emb store (.ok []) reranker predictFails top_k ∧
    hybridSearch μ ws wk query emb (fun _ _ _ => .error e) (.error e') reranker predictFails
        top_k = [] := by
  refine ⟨rfl, ?_, ?_⟩
  · unfold hybridSearch
    rw [keywordSearch_error_eq_empty μ wk query e' (top_k * 2)]
  · unfold hybridSearch
    cases reranker with
    | none => exact List.take_nil
    | some f => exact List.take_nil

/-- C3. For every query, embedding, store, keyword input and `top_k`,
the hybrid search output has length at most `top_k` and its scores are
non-increasing from first to last. -/
theorem hybridSearch_sorted_truncated (μ : Type) (ws wk : ℚ) (query : List Char)
    (emb : List ℚ) (store : VecStore μ) (docsE : Except PyErr (List (KwDoc μ)))
    (reranker : Option (List Char → List Char → ℚ)) (predictFails : Bool) (top_k : Nat) :
    (hybridSearch μ ws wk query emb store docsE reranker predictFails top_k).length ≤
        top_k ∧
    (hybridSearch μ ws wk query emb store docsE reranker predictFails top_k).Pairwise
      (fun a b => b.score ≤ a.score) := by
  unfold hybridSearch
  cases semanticSearch μ ws emb store (top_k * 2) (7 / 10) with
  | error e => exact ⟨by simp, List.Pairwise.nil⟩
  | ok sem =>
    dsimp only
    constructor
    · rw [List.length_take]
      exact min_le_left _ _
    · exact List.Pairwise.sublist (List.take_sublist _ _)
        (List.sorted_insertionSort (scoreGe μ) _)

theorem rerankResults_fails (μ : Type) (f : List Char → List Char → ℚ) (q : List Char)
    (l : List (SearchResult μ)) : rerankResults μ (some f) true q l = l := by
  by_cases h : l.isEmpty = true <;> simp [rerankResults, h]

theorem rerankResults_success (μ : Type) (f : List Char → List Char → ℚ) (q : List Char)
    (l : List (SearchResult μ)) (h : l.isEmpty = false) :
    rerankResults μ (some f) false q l =
      l.map fun r => { r with score := f q r.content } := by
  simp [rerankResults, h]

/-- C5. With the reranker unavailable, or with the rerank call failing,
the final ranking equals the fused results sorted descending by their
fused scores (truncated to `top_k`); with the reranker available and
succeeding, every returned result's score is overwritten with the pairwise
model's score of `(query, content)`. -/
theorem hybridSearch_rerank_modes (μ : Type) (ws wk : ℚ) (query : List Char)
    (emb : List ℚ) (store : VecStore μ) (docsE : Except PyErr (List (KwDoc μ)))
    (f : List Char → List Char → ℚ) (predictFails : Bool) (top_k : Nat) :
    hybridSearch μ ws wk query emb store docsE none predictFails top_k =
      fusedRanking μ ws wk query emb store docsE top_k ∧
    hybridSearch μ ws wk query emb store docsE (some f) true top_k =
      fusedRanking μ ws wk query emb store docsE top_k ∧
    (hybridSearch μ ws wk query emb store docsE (some f) false top_k).Forall
      (fun r => r.score = f query r.content) := by
  unfold hybridSearch fusedRanking
  cases semanticSearch μ ws emb store (top_k * 2) (7 / 10) with
  | error e => exact ⟨rfl, rfl, trivial⟩
  | ok sem =>
    dsimp only
    refine ⟨rfl, ?_, ?_⟩
    · rw [rerankResults_fails, ite_self]
    · rw [List.forall_iff_forall_mem]
      intro r hr
      cases hc : (combineResults μ sem (keywordSearch μ wk query docsE (top_k * 2))).isEmpty
      · have hcond : ((some f).isSome && !(combineResults μ sem
            (keywordSearch μ wk query docsE (top_k * 2))).isEmpty) = true := by
          rw [hc]; rfl
        rw [if_pos hcond, rerankResults_success μ f query _ hc] at hr
        have hmem := ((List.perm_insertionSort (scoreGe μ) _).mem_iff).mp
          (List.mem_of_mem_take hr)
        rw [List.mem_map] at hmem
        obtain ⟨x, _, rfl⟩ := hmem
        rfl
      · have hl := List.isEmpty_iff.mp hc
        rw [hl] at hr
        simp [rerankResults] at hr
        rw [show sortByScoreDesc μ [] = [] from rfl] at hr
        simp at hr

end RagCore
